import Mathlib

/-!
Verification development for the circuit-compilation and circuit-equivalence
core of this repository.  The three-qubit gate decomposition engine and the
measurement-aware equivalence verifier are modelled from the specification
(the corresponding implementation files are not part of the sources; only
their tests are), using exact arithmetic: the cyclotomic ring on eighth
roots of unity for gate matrices, and exact Gaussian rationals for the
equivalence verifier.  All amplitude arithmetic is over integers so that
every concrete claim evaluates inside the kernel.
-/

namespace GateDecomp

/-- Modelled from the spec: exact complex amplitudes for the Gate Catalog and
the Decomposition Engine, whose sources are not in the repository snapshot.
An element (n0 + n1 z + n2 z^2 + n3 z^3) / 2^e of the ring on the primitive
eighth root of unity z (z^4 = -1).  This ring holds every entry of the three
target gate matrices and of the template operations (T rotations,
controlled-not operations and Hadamard factors, whose entries are dyadic
multiples of powers of z). -/
structure Z8 where
  n0 : ℤ
  n1 : ℤ
  n2 : ℤ
  n3 : ℤ
  e : ℕ

instance : Zero Z8 := ⟨⟨0, 0, 0, 0, 0⟩⟩

instance : One Z8 := ⟨⟨1, 0, 0, 0, 0⟩⟩

/-- The primitive eighth root of unity. -/
def zeta : Z8 := ⟨0, 1, 0, 0, 0⟩

/-- The inverse of the eighth root of unity: z^7 = -z^3. -/
def zetaInv : Z8 := ⟨0, 0, 0, -1, 0⟩

/-- One over the square root of two: (z - z^3) / 2. -/
def hval : Z8 := ⟨0, 1, 0, -1, 1⟩

/-- Numerator rescaling by a power of two, used to bring two dyadic
fractions to their least common denominator. -/
def shl (n : ℤ) (k : ℕ) : ℤ := n * ((2 ^ k : ℕ) : ℤ)

instance : Add Z8 :=
  ⟨fun a b =>
    let d := max a.e b.e
    ⟨shl a.n0 (d - a.e) + shl b.n0 (d - b.e),
     shl a.n1 (d - a.e) + shl b.n1 (d - b.e),
     shl a.n2 (d - a.e) + shl b.n2 (d - b.e),
     shl a.n3 (d - a.e) + shl b.n3 (d - b.e), d⟩⟩

instance : Neg Z8 := ⟨fun a => ⟨-a.n0, -a.n1, -a.n2, -a.n3, a.e⟩⟩

/-- Multiplication in the ring, reducing with z^4 = -1; denominator
exponents add. -/
instance : Mul Z8 :=
  ⟨fun a b =>
    ⟨a.n0 * b.n0 - a.n1 * b.n3 - a.n2 * b.n2 - a.n3 * b.n1,
     a.n0 * b.n1 + a.n1 * b.n0 - a.n2 * b.n3 - a.n3 * b.n2,
     a.n0 * b.n2 + a.n1 * b.n1 + a.n2 * b.n0 - a.n3 * b.n3,
     a.n0 * b.n3 + a.n1 * b.n2 + a.n2 * b.n1 + a.n3 * b.n0,
     a.e + b.e⟩⟩

/-- Equality of the represented values: cross-multiplied comparison of the
dyadic fractions, coefficient by coefficient. -/
def zEq (a b : Z8) : Prop :=
  shl a.n0 b.e = shl b.n0 a.e ∧ shl a.n1 b.e = shl b.n1 a.e ∧
  shl a.n2 b.e = shl b.n2 a.e ∧ shl a.n3 b.e = shl b.n3 a.e

instance (a b : Z8) : Decidable (zEq a b) := by
  unfold zEq; infer_instance

/-- Bit q of a basis-state index. -/
def bitOf (s : ℕ) (q : Fin 3) : Bool := s.testBit q.val

/-- Set bit q of a basis-state index (indices below 8 stay below 8). -/
def setBitN (s : ℕ) (q : Fin 3) (b : Bool) : ℕ :=
  if b then s ||| (1 <<< q.val) else s &&& (7 ^^^ (1 <<< q.val))

/-- Flip bit q of a basis-state index. -/
def flipBitN (s : ℕ) (q : Fin 3) : ℕ := s ^^^ (1 <<< q.val)

/-- Exchange bits p and q of a basis-state index. -/
def swapBitsN (s : ℕ) (p q : Fin 3) : ℕ :=
  setBitN (setBitN s p (bitOf s q)) q (bitOf s p)

/-- A dense operator on the three-qubit register, as an entry function over
basis-state indices (row, column). -/
def Mat : Type := ℕ → ℕ → Z8

/-- The three gates of the Gate Catalog. -/
inductive TQGate where
  | ccz : TQGate
  | ccx : TQGate
  | cswap : TQGate
deriving DecidableEq, Fintype

/-- A circuit operation: diagonal phase, controlled-not and swap operations
are distinguished so that applying them is index bookkeeping rather than a
full matrix product; general one- and two-qubit unitaries carry their
entries; a catalog gate bound to three slots is a not-yet-decomposed
operation. -/
inductive XOp where
  | ph : Z8 → Fin 3 → XOp
  | cx : Fin 3 → Fin 3 → XOp
  | sw : Fin 3 → Fin 3 → XOp
  | u1 : (Bool → Bool → Z8) → Fin 3 → XOp
  | u2 : (Bool → Bool → Bool → Bool → Z8) → Fin 3 → Fin 3 → XOp
  | big : TQGate → Fin 3 → Fin 3 → Fin 3 → XOp

/-- Gate Catalog: the doubly-controlled phase-flip matrix bound to slots
a, b, c: diagonal, negating the all-ones amplitude only. -/
def embedCCZ (a b c : Fin 3) : Mat := fun r x =>
  if r = x then
    (if bitOf r a && bitOf r b && bitOf r c then -(1 : Z8) else 1)
  else 0

/-- Gate Catalog: the doubly-controlled bit-flip bound to controls a, b and
target c: flips the target iff both controls are 1. -/
def embedCCX (a b c : Fin 3) : Mat := fun r x =>
  if r = (if bitOf x a && bitOf x b then flipBitN x c else x) then 1 else 0

/-- Gate Catalog: the controlled-swap bound to control a and targets b, c:
swaps the two targets iff the control is 1. -/
def embedCSWAP (a b c : Fin 3) : Mat := fun r x =>
  if r = (if bitOf x a then swapBitsN x b c else x) then 1 else 0

/-- The matrix of a catalog gate bound to a qubit triple. -/
def embedBig : TQGate → Fin 3 → Fin 3 → Fin 3 → Mat
  | .ccz => embedCCZ
  | .ccx => embedCCX
  | .cswap => embedCSWAP

/-- A state vector on the three-qubit register: a balanced tree of its eight
amplitudes. -/
def Vec : Type := ((Z8 × Z8) × (Z8 × Z8)) × ((Z8 × Z8) × (Z8 × Z8))

/-- Tabulate a state vector from an amplitude function. -/
def tabV (f : ℕ → Z8) : Vec :=
  (((f 0, f 1), (f 2, f 3)), ((f 4, f 5), (f 6, f 7)))

/-- Amplitude selection from eight explicitly bound amplitudes. -/
def sel (a0 a1 a2 a3 a4 a5 a6 a7 : Z8) (i : ℕ) : Z8 :=
  if i < 4 then (if i < 2 then (if i < 1 then a0 else a1) else (if i < 3 then a2 else a3))
  else (if i < 6 then (if i < 5 then a4 else a5) else (if i < 7 then a6 else a7))

/-- Amplitude r of a state vector. -/
def entryV (v : Vec) (r : ℕ) : Z8 :=
  sel v.1.1.1 v.1.1.2 v.1.2.1 v.1.2.2 v.2.1.1 v.2.1.2 v.2.2.1 v.2.2.2 r

/-- The computational basis vector with a one at position x. -/
def basisV (x : ℕ) : Vec := tabV (fun r => if r = x then 1 else 0)

/-- Apply one operation to a state vector, expanding the sum over the
operation's own arity only; the input amplitudes are bound once so that
evaluation shares them across all output amplitudes.  Phase, controlled-not
and swap operations act by index bookkeeping. -/
def applyOpV (op : XOp) (v : Vec) : Vec :=
  match v with
  | (((a0, a1), (a2, a3)), ((a4, a5), (a6, a7))) =>
    match op with
    | .ph z q => tabV (fun r =>
        if bitOf r q then z * sel a0 a1 a2 a3 a4 a5 a6 a7 r
        else sel a0 a1 a2 a3 a4 a5 a6 a7 r)
    | .cx p q => tabV (fun r =>
        sel a0 a1 a2 a3 a4 a5 a6 a7 (if bitOf r p then flipBitN r q else r))
    | .sw p q => tabV (fun r => sel a0 a1 a2 a3 a4 a5 a6 a7 (swapBitsN r p q))
    | .u1 g q => tabV (fun r =>
        g (bitOf r q) false * sel a0 a1 a2 a3 a4 a5 a6 a7 (setBitN r q false) +
        g (bitOf r q) true * sel a0 a1 a2 a3 a4 a5 a6 a7 (setBitN r q true))
    | .u2 g p q => tabV (fun r =>
        g (bitOf r p) (bitOf r q) false false *
          sel a0 a1 a2 a3 a4 a5 a6 a7 (setBitN (setBitN r p false) q false) +
        g (bitOf r p) (bitOf r q) false true *
          sel a0 a1 a2 a3 a4 a5 a6 a7 (setBitN (setBitN r p false) q true) +
        g (bitOf r p) (bitOf r q) true false *
          sel a0 a1 a2 a3 a4 a5 a6 a7 (setBitN (setBitN r p true) q false) +
        g (bitOf r p) (bitOf r q) true true *
          sel a0 a1 a2 a3 a4 a5 a6 a7 (setBitN (setBitN r p true) q true))
    | .big t a b c => tabV (fun r =>
        (List.range 8).foldr
          (fun s acc => embedBig t a b c r s *
            sel a0 a1 a2 a3 a4 a5 a6 a7 s + acc) 0)

/-- The state produced by running a circuit on an input vector: operations
act in sequence order. -/
def runV (ops : List XOp) (v : Vec) : Vec := ops.foldl (fun w op => applyOpV op w) v

/-- Equality of state vectors on the three-qubit basis. -/
def vecEq (v w : Vec) : Prop := ∀ r : Fin 8, zEq (entryV v r.val) (entryV w r.val)

instance (v w : Vec) : Decidable (vecEq v w) := by
  unfold vecEq; infer_instance

/-- A circuit implements a register operator iff running it on each
computational basis vector produces that operator's column: this is exact
equality of the circuit's unitary with the operator, entry by entry (in
particular not merely equality up to a global phase). -/
def circImplements (ops : List XOp) (U : Mat) : Prop :=
  ∀ x : Fin 8, vecEq (runV ops (basisV x.val)) (tabV (fun r => U r x.val))

instance (ops : List XOp) (U : Mat) : Decidable (circImplements ops U) := by
  unfold circImplements; infer_instance

/-- The Hadamard gate. -/
def hG : Bool → Bool → Z8 := fun a b => if a && b then -hval else hval

/-- Basis change mapping the singlet of the pair to the all-ones state: a
controlled-not (first slot the control) followed by a Hadamard on the first
slot, merged into one two-qubit operation. -/
def vG : Bool → Bool → Bool → Bool → Z8 := fun a b c d =>
  if b = xor d c then (if a && c then -hval else hval) else 0

/-- The inverse of the singlet basis change, merged into one operation. -/
def vdagG : Bool → Bool → Bool → Bool → Z8 := fun a b c d =>
  if b = xor d a then (if a && c then -hval else hval) else 0

/-- The inverse singlet basis change fused with the final controlled-not of
the phase-flip template, merged into one two-qubit operation. -/
def mG : Bool → Bool → Bool → Bool → Z8 := fun a b c d =>
  if b = xor (xor d c) a then (if a && c then -hval else hval) else 0

/-- Modelled from the spec: the canonical decomposition template for the
doubly-controlled phase-flip on slots a, b, c, using only the interactions
(a, b) and (b, c): T rotations interleaved with four controlled-not sweeps,
eight two-qubit operations in all. -/
def cczCore (a b c : Fin 3) : List XOp :=
  [.ph zeta a, .ph zeta b, .ph zeta c,
   .cx a b, .cx b c,
   .ph zetaInv b, .ph zeta c,
   .cx a b, .cx b c,
   .ph zetaInv c,
   .cx a b, .cx b c,
   .ph zetaInv c,
   .cx a b, .cx b c]

/-- Modelled from the spec: the controlled-swap decomposition used when the
control is adjacent to the near target and the near target to the far one:
the singlet basis change on the targets, the phase-flip template with its
final controlled-not fused into the inverse basis change: nine two-qubit
operations. -/
def outside9 (ctrl near far : Fin 3) : List XOp :=
  [.u2 vG near far] ++ (cczCore ctrl near far).dropLast ++ [.u2 mG near far]

/-- Modelled from the spec: the controlled-swap decomposition used when the
control sits between the two targets: a swap relabeling moves the control
aside, then the singlet basis change and the phase-flip template apply, and
the relabeling is undone: twelve two-qubit operations. -/
def inside12 (t1 ctrl t2 : Fin 3) : List XOp :=
  [.sw t1 ctrl, .u2 vG ctrl t2] ++ cczCore t1 ctrl t2 ++ [.u2 vdagG ctrl t2, .sw t1 ctrl]

/-- Modelled from the spec: the Decomposition Engine reorders the symmetric
phase-flip template so that both template interactions touch adjacent
pairs. -/
def cczD (adj : Fin 3 → Fin 3 → Bool) (a b c : Fin 3) : List XOp :=
  if adj a b && adj b c then cczCore a b c
  else if adj b a && adj a c then cczCore b a c
  else cczCore a c b

/-- Modelled from the spec: the doubly-controlled bit-flip decomposes as the
phase-flip template conjugated by a Hadamard on the target. -/
def ccxD (adj : Fin 3 → Fin 3 → Bool) (a b c : Fin 3) : List XOp :=
  [.u1 hG c] ++ cczD adj a b c ++ [.u1 hG c]

/-- Modelled from the spec: the controlled-swap decomposition chooses its
shape from which pairs the qubit assignment makes adjacent: nine two-qubit
operations when the targets are mutually adjacent, and twelve (with the
extra relabeling) when only the control is adjacent to each target. -/
def cswapD (adj : Fin 3 → Fin 3 → Bool) (c t1 t2 : Fin 3) : List XOp :=
  if adj t1 t2 then
    (if adj c t1 then outside9 c t1 t2 else outside9 c t2 t1)
  else inside12 t1 c t2

/-- Modelled from the spec: decompose one catalog gate bound to an ordered
qubit triple into one- and two-qubit operations respecting adjacency. -/
def decomposeD (adj : Fin 3 → Fin 3 → Bool) : TQGate → Fin 3 → Fin 3 → Fin 3 → List XOp
  | .ccz => cczD adj
  | .ccx => ccxD adj
  | .cswap => cswapD adj

/-- Modelled from the spec: the Connectivity-Aware Converter rewrites every
operation of arity greater than two through the Decomposition Engine and
keeps the rest. -/
def convert (adj : Fin 3 → Fin 3 → Bool) (ops : List XOp) : List XOp :=
  ops.flatMap (fun op =>
    match op with
    | .big t a b c => decomposeD adj t a b c
    | op => [op])

/-- The number of qubits an operation touches. -/
def arity : XOp → ℕ
  | .ph _ _ => 1
  | .u1 _ _ => 1
  | .cx _ _ => 2
  | .sw _ _ => 2
  | .u2 _ _ _ => 2
  | .big _ _ _ _ => 3

/-- The number of two-qubit operations of a circuit. -/
def twoCount (ops : List XOp) : ℕ := (ops.filter (fun op => arity op == 2)).length

/-- The number of operations of arity greater than two. -/
def overCount (ops : List XOp) : ℕ := (ops.filter (fun op => 2 < arity op)).length

/-- Modelled from the spec: the Device Validator scans all operations and
fails on any operation of arity greater than two or any two-qubit operation
on a non-adjacent pair. -/
def validate (adj : Fin 3 → Fin 3 → Bool) (ops : List XOp) : Bool :=
  ops.all (fun op =>
    match op with
    | .ph _ _ => true
    | .u1 _ _ => true
    | .cx p q => adj p q
    | .sw p q => adj p q
    | .u2 _ p q => adj p q
    | .big _ _ _ _ => false)

/-- The line device on three qubits: consecutive indices are adjacent. -/
def lineAdj : Fin 3 → Fin 3 → Bool := fun i j =>
  (i.val + 1 == j.val) || (j.val + 1 == i.val)

/-- A fully-adjacent device on three qubits. -/
def fullAdj : Fin 3 → Fin 3 → Bool := fun i j => i != j

/-- The three grid qubits of the locality test ((0,0), (1,0), (0,1) in that
order): the first is adjacent to each of the others, which are mutually
diagonal, hence not adjacent. -/
def gridAdj : Fin 3 → Fin 3 → Bool := fun i j =>
  (i == 0 && j != 0) || (j == 0 && i != 0)

end GateDecomp

namespace EqVerif

/-- Modelled from the spec: exact complex amplitudes for the Equivalence
Verifier, whose source is not in the repository snapshot.  A Gaussian
rational (re + im i) / d with a positive common denominator, kept
unnormalized so that all arithmetic is integer arithmetic. -/
structure G where
  re : ℤ
  im : ℤ
  d : ℕ
  hd : d ≠ 0

/-- The amplitude zero. -/
def gzero : G := ⟨0, 0, 1, one_ne_zero⟩

/-- The amplitude one. -/
def gone : G := ⟨1, 0, 1, one_ne_zero⟩

/-- Addition of amplitudes. -/
def gadd (x y : G) : G :=
  ⟨x.re * (y.d : ℤ) + y.re * (x.d : ℤ), x.im * (y.d : ℤ) + y.im * (x.d : ℤ),
   x.d * y.d, Nat.mul_ne_zero x.hd y.hd⟩

/-- Multiplication of amplitudes. -/
def gmul (x y : G) : G :=
  ⟨x.re * y.re - x.im * y.im, x.re * y.im + x.im * y.re,
   x.d * y.d, Nat.mul_ne_zero x.hd y.hd⟩

/-- Subtraction of amplitudes. -/
def gsub (x y : G) : G :=
  ⟨x.re * (y.d : ℤ) - y.re * (x.d : ℤ), x.im * (y.d : ℤ) - y.im * (x.d : ℤ),
   x.d * y.d, Nat.mul_ne_zero x.hd y.hd⟩

/-- The reciprocal of an amplitude (zero gets reciprocal zero). -/
def ginv (x : G) : G :=
  if h : x.re = 0 ∧ x.im = 0 then gzero
  else
    ⟨x.re * (x.d : ℤ), -x.im * (x.d : ℤ), (x.re * x.re + x.im * x.im).toNat, by
      have hpos : 0 < x.re * x.re + x.im * x.im := by
        rcases not_and_or.mp h with h1 | h1
        · nlinarith [mul_self_pos.mpr h1, mul_self_nonneg x.im]
        · nlinarith [mul_self_pos.mpr h1, mul_self_nonneg x.re]
      omega⟩

/-- Division of amplitudes. -/
def gdiv (x y : G) : G := gmul x (ginv y)

/-- Equality of the represented complex values (cross-multiplied). -/
def valEq (x y : G) : Prop :=
  x.re * (y.d : ℤ) = y.re * (x.d : ℤ) ∧ x.im * (y.d : ℤ) = y.im * (x.d : ℤ)

instance (x y : G) : Decidable (valEq x y) := by
  unfold valEq; infer_instance

/-- A discrepancy: the squared absolute value of an amplitude difference,
as an integer numerator over a positive denominator. -/
def Disc : Type := ℤ × {k : ℕ // k ≠ 0}

/-- The squared absolute value of an amplitude, as a discrepancy. -/
def normSq (x : G) : Disc :=
  ⟨x.re * x.re + x.im * x.im, ⟨x.d * x.d, Nat.mul_ne_zero x.hd x.hd⟩⟩

/-- The squared absolute value of an amplitude as a rational number. -/
def nsQ (x : G) : ℚ :=
  ((x.re * x.re + x.im * x.im : ℤ) : ℚ) / ((x.d * x.d : ℕ) : ℚ)

/-- A circuit operation of the Equivalence Verifier model on n qubits: a
general one-qubit unitary, a general two-qubit unitary, or a measurement of
a qubit list carrying an inversion-mask list (missing mask entries mean no
inversion). -/
inductive QOp (n : ℕ) where
  | u1 : (Bool → Bool → G) → Fin n → QOp n
  | u2 : (Bool → Bool → Bool → Bool → G) → Fin n → Fin n → QOp n
  | meas : List (Fin n) → List Bool → QOp n

/-- Bit q of a basis-state index. -/
def bitQ (r : ℕ) (q : ℕ) : Bool := r.testBit q

/-- Set bit q of a basis-state index. -/
def setQ (r : ℕ) (q : ℕ) (b : Bool) : ℕ :=
  if b then (if r.testBit q then r else r + (1 <<< q))
  else (if r.testBit q then r - (1 <<< q) else r)

/-- The identity operator on the register. -/
def idG : ℕ → ℕ → G := fun r x => if r = x then gone else gzero

/-- Left-multiply a register operator by one operation; measurements do not
change the unitary prefix being accumulated. -/
def applyQ {n : ℕ} (op : QOp n) (U : ℕ → ℕ → G) : ℕ → ℕ → G :=
  match op with
  | .u1 g q => fun r x =>
      gadd (gmul (g (bitQ r q.val) false) (U (setQ r q.val false) x))
           (gmul (g (bitQ r q.val) true) (U (setQ r q.val true) x))
  | .u2 g p q => fun r x =>
      gadd (gadd
        (gmul (g (bitQ r p.val) (bitQ r q.val) false false)
              (U (setQ (setQ r p.val false) q.val false) x))
        (gmul (g (bitQ r p.val) (bitQ r q.val) false true)
              (U (setQ (setQ r p.val false) q.val true) x)))
      (gadd
        (gmul (g (bitQ r p.val) (bitQ r q.val) true false)
              (U (setQ (setQ r p.val true) q.val false) x))
        (gmul (g (bitQ r p.val) (bitQ r q.val) true true)
              (U (setQ (setQ r p.val true) q.val true) x)))
  | .meas _ _ => U

/-- Modelled from the spec: the unitary prefix of a circuit, built on one
fixed order-independent qubit indexing; terminal measurements are not part
of the prefix. -/
def preU {n : ℕ} (c : List (QOp n)) : ℕ → ℕ → G :=
  c.foldl (fun U op => applyQ op U) idG

/-- The scan state: bitmasks of the terminally measured qubits, of their
inversion bits, and of the qubits acted on by any later operation. -/
structure ScanRes where
  meas : ℕ
  mask : ℕ
  seen : ℕ

/-- Record one measurement's qubit list (with its mask list) into the scan
state: a qubit already acted on later is not terminally measured here;
missing mask entries count as false. -/
def measFold {n : ℕ} : List (Fin n) → List Bool → ScanRes → ScanRes
  | [], _, s => s
  | q :: qs, ml, s =>
      measFold qs ml.tail
        (if s.seen.testBit q.val then s
         else ⟨s.meas ||| (1 <<< q.val),
               s.mask ||| (if ml.headD false then 1 <<< q.val else 0),
               s.seen ||| (1 <<< q.val)⟩)

/-- Fold one operation (scanning from the back of the circuit). -/
def stepOp {n : ℕ} (op : QOp n) (s : ScanRes) : ScanRes :=
  match op with
  | .u1 _ q => ⟨s.meas, s.mask, s.seen ||| (1 <<< q.val)⟩
  | .u2 _ p q => ⟨s.meas, s.mask, s.seen ||| (1 <<< p.val) ||| (1 <<< q.val)⟩
  | .meas qs ml => measFold qs ml s

/-- Modelled from the spec: identify the terminally measured qubits of a
circuit, with their inversion masks: a measurement is terminal if no later
operation acts on its qubit. -/
def scan {n : ℕ} : List (QOp n) → ScanRes
  | [] => ⟨0, 0, 0⟩
  | op :: rest => stepOp op (scan rest)

/-- All (row, column) index pairs of the register operator. -/
def pairsL (n : ℕ) : List (ℕ × ℕ) :=
  (List.range (2 ^ n)).flatMap (fun r => (List.range (2 ^ n)).map (fun x => (r, x)))

/-- Modelled from the spec: the discrepancies of one measurement branch b.
Within a branch a single relative phase is permitted: it is fixed from the
first pair where the reference prefix has a nonzero amplitude, and every
amplitude of the branch is compared after applying it.  The row pairing
applies the exact boolean mask difference dG (as a bit flip on measured
qubits), never a numeric comparison. -/
def branchDs (M dG : ℕ) (U1 U2 : ℕ → ℕ → G) (ps : List (ℕ × ℕ)) (b : ℕ) : List Disc :=
  let block := ps.filter (fun p => p.1 &&& M == b)
  match block.find? (fun p => decide (¬ valEq (U1 p.1 p.2) gzero)) with
  | none => block.map (fun p => normSq (U2 (p.1 ^^^ dG) p.2))
  | some p0 =>
      let phi := gdiv (U2 (p0.1 ^^^ dG) p0.2) (U1 p0.1 p0.2)
      block.map (fun p => normSq (gsub (U2 (p.1 ^^^ dG) p.2) (gmul phi (U1 p.1 p.2))))

/-- Modelled from the spec: all discrepancies between the two prefixes.
With no terminal measurement the amplitudes are compared directly, with no
phase freedom; otherwise the comparison runs branch by branch over the
measured-bit patterns. -/
def dsOf (n M dG : ℕ) (U1 U2 : ℕ → ℕ → G) : List Disc :=
  if M = 0 then (pairsL n).map (fun p => normSq (gsub (U2 p.1 p.2) (U1 p.1 p.2)))
  else (List.range (2 ^ n)).flatMap
    (fun b => if b &&& M = b then branchDs M dG U1 U2 (pairsL n) b else [])

/-- Modelled from the spec: the Equivalence Verifier core.  It fails
outright (none) when the sets of terminally measured qubits differ;
otherwise it returns the list of discrepancies that the tolerance must
absorb.  The inversion masks enter only through their exact boolean
difference on measured qubits. -/
def core {n : ℕ} (c1 c2 : List (QOp n)) : Option (List Disc) :=
  let s1 := scan c1
  let s2 := scan c2
  if s1.meas = s2.meas then
    some (dsOf n s1.meas ((s1.mask ^^^ s2.mask) &&& s1.meas) (preU c1) (preU c2))
  else none

/-- Modelled from the spec: the two circuits are judged equivalent at the
given absolute tolerance iff the verifier core succeeds and every
discrepancy is at most the squared tolerance. -/
def equivAt {n : ℕ} (c1 c2 : List (QOp n)) (atol : ℚ) : Prop :=
  (core c1 c2).elim False
    (fun ds => ∀ p ∈ ds, (p.1 : ℚ) ≤ atol * atol * ((p.2.val : ℕ) : ℚ))

/-- The verifier core succeeded with every discrepancy exactly zero. -/
def coreAllZero {n : ℕ} (c1 c2 : List (QOp n)) : Bool :=
  match core c1 c2 with
  | none => false
  | some ds => ds.all (fun p => p.1 == 0)

/-- The verifier core failed outright, or some discrepancy is at least
one. -/
def coreRefuted {n : ℕ} (c1 c2 : List (QOp n)) : Bool :=
  match core c1 c2 with
  | none => true
  | some ds => ds.any (fun p => decide ((p.2.val : ℤ) ≤ p.1))

/-- The bit-flip gate. -/
def xG : Bool → Bool → G := fun a b => if a = b then gzero else gone

/-- A phase rotation: diagonal, one on 0 and the given unit on 1.  With the
unit at angle pi times epsilon from one, this is the epsilon-angle phase
rotation of the spec. -/
def phaseG (u : G) : Bool → Bool → G := fun a b =>
  if a then (if b then u else gzero) else (if b then gzero else gone)

end EqVerif

namespace OpEq

open GateDecomp (TQGate)

/-- The six permutations of three qubit slots, as explicit maps. -/
def perms3 : List (Fin 3 → Fin 3) :=
  [![0, 1, 2], ![0, 2, 1], ![1, 0, 2], ![1, 2, 0], ![2, 0, 1], ![2, 1, 0]]

/-- Modelled from the spec: each gate's symmetry group, the slot
permutations under which its matrix is invariant: the phase-flip is fully
symmetric, the bit-flip is symmetric in its two controls (slots 0 and 1),
the controlled-swap in its two targets (slots 1 and 2). -/
def symGroup : TQGate → List (Fin 3 → Fin 3)
  | .ccz => perms3
  | .ccx => [![0, 1, 2], ![1, 0, 2]]
  | .cswap => [![0, 1, 2], ![0, 2, 1]]

/-- The doubly-controlled phase-flip gate. -/
def CCZ : TQGate := TQGate.ccz

/-- The doubly-controlled bit-flip gate. -/
def CCX : TQGate := TQGate.ccx

/-- Alias of the doubly-controlled bit-flip gate: the same gate constant. -/
def TOFFOLI : TQGate := CCX

/-- The controlled-swap gate. -/
def CSWAP : TQGate := TQGate.cswap

/-- Alias of the controlled-swap gate: the same gate constant. -/
def FREDKIN : TQGate := CSWAP

/-- An Operation: a catalog gate bound to an ordered tuple of three qubits
(line qubit indices). -/
structure Operation where
  gate : TQGate
  qubits : Fin 3 → ℕ

/-- Modelled from the spec: two Operations are equal iff their gates are
equal (aliases are the same constant) and one's qubit tuple is obtained
from the other's by a permutation in the gate's symmetry group. -/
def opEq (o1 o2 : Operation) : Prop :=
  o1.gate = o2.gate ∧
    ∃ s ∈ symGroup o1.gate, o2.qubits = fun i => o1.qubits (s i)

instance (o1 o2 : Operation) : Decidable (opEq o1 o2) := by
  unfold opEq; infer_instance

end OpEq

set_option maxRecDepth 2000000

set_option maxHeartbeats 4000000

namespace EqVerif

/-- Evaluate the verifier at a failed core: never equivalent. -/
theorem equivAt_none {n : ℕ} {c1 c2 : List (QOp n)}
    (hc : core c1 c2 = none) (atol : ℚ) : ¬ equivAt c1 c2 atol := by
  unfold equivAt
  rw [hc]
  exact id

/-- Evaluate the verifier at a successful core: every discrepancy must be
within the squared tolerance. -/
theorem equivAt_some {n : ℕ} {c1 c2 : List (QOp n)} {ds : List Disc}
    (hc : core c1 c2 = some ds) (atol : ℚ) :
    equivAt c1 c2 atol ↔ ∀ p ∈ ds, (p.1 : ℚ) ≤ atol * atol * ((p.2.val : ℕ) : ℚ) := by
  unfold equivAt
  rw [hc]
  exact Iff.rfl

/-- A core whose discrepancies all vanish yields equivalence at every
tolerance. -/
theorem equivAt_of_allZero {n : ℕ} {c1 c2 : List (QOp n)}
    (h : coreAllZero c1 c2 = true) (atol : ℚ) : equivAt c1 c2 atol := by
  unfold coreAllZero at h
  cases hc : core c1 c2 with
  | none => rw [hc] at h; cases h
  | some ds =>
      rw [hc] at h
      rw [equivAt_some hc]
      intro p hp
      have h0 : p.1 = 0 := by
        have hb := List.all_eq_true.mp h p hp
        exact beq_iff_eq.mp hb
      rw [h0]
      push_cast
      exact mul_nonneg (mul_self_nonneg atol) (Nat.cast_nonneg _)

/-- A refuted core yields inequivalence at every tolerance below one. -/
theorem not_equivAt_of_refuted {n : ℕ} {c1 c2 : List (QOp n)}
    (h : coreRefuted c1 c2 = true) (atol : ℚ) (h0 : 0 ≤ atol) (h1 : atol < 1) :
    ¬ equivAt c1 c2 atol := by
  unfold coreRefuted at h
  cases hc : core c1 c2 with
  | none => exact equivAt_none hc atol
  | some ds =>
      rw [hc] at h
      rw [equivAt_some hc]
      intro hall
      obtain ⟨p, hp, hge⟩ := List.any_eq_true.mp h
      have hge2 : (p.2.val : ℤ) ≤ p.1 := of_decide_eq_true hge
      have hle := hall p hp
      have hdpos : (0 : ℚ) < ((p.2.val : ℕ) : ℚ) := by
        have := Nat.pos_of_ne_zero p.2.2
        exact_mod_cast this
      have hcast : ((p.2.val : ℕ) : ℚ) ≤ (p.1 : ℚ) := by exact_mod_cast hge2
      have hsq : atol * atol < 1 := by nlinarith
      have hlt := mul_lt_mul_of_pos_right hsq hdpos
      rw [one_mul] at hlt
      linarith

/-- Differing terminally measured qubit sets refute equivalence outright,
at every tolerance. -/
theorem not_equivAt_of_measNe {n : ℕ} {c1 c2 : List (QOp n)}
    (h : (scan c1).meas ≠ (scan c2).meas) (atol : ℚ) : ¬ equivAt c1 c2 atol := by
  apply equivAt_none
  simp [core, h]

/-- Component formula for subtraction. -/
theorem gsub_re (x y : G) : (gsub x y).re = x.re * (y.d : ℤ) - y.re * (x.d : ℤ) := rfl

/-- Component formula for subtraction. -/
theorem gsub_im (x y : G) : (gsub x y).im = x.im * (y.d : ℤ) - y.im * (x.d : ℤ) := rfl

/-- Component formula for subtraction. -/
theorem gsub_d (x y : G) : (gsub x y).d = x.d * y.d := rfl

/-- Component formula for multiplication. -/
theorem gmul_re (x y : G) : (gmul x y).re = x.re * y.re - x.im * y.im := rfl

/-- Component formula for multiplication. -/
theorem gmul_im (x y : G) : (gmul x y).im = x.re * y.im + x.im * y.re := rfl

/-- Component formula for multiplication. -/
theorem gmul_d (x y : G) : (gmul x y).d = x.d * y.d := rfl

/-- Component formula for the reciprocal of a nonzero amplitude. -/
theorem ginv_re {x : G} (h : ¬(x.re = 0 ∧ x.im = 0)) :
    (ginv x).re = x.re * (x.d : ℤ) := by rw [ginv, dif_neg h]

/-- Component formula for the reciprocal of a nonzero amplitude. -/
theorem ginv_im {x : G} (h : ¬(x.re = 0 ∧ x.im = 0)) :
    (ginv x).im = -x.im * (x.d : ℤ) := by rw [ginv, dif_neg h]

/-- Component formula for the reciprocal of a nonzero amplitude. -/
theorem ginv_d {x : G} (h : ¬(x.re = 0 ∧ x.im = 0)) :
    (ginv x).d = (x.re * x.re + x.im * x.im).toNat := by rw [ginv, dif_neg h]

/-- Value equality with zero means both numerators vanish. -/
theorem valEq_gzero_iff (x : G) : valEq x gzero ↔ x.re = 0 ∧ x.im = 0 := by
  unfold valEq gzero
  simp

/-- A vanishing amplitude has vanishing squared norm numerator. -/
theorem normSq_fst_of_valEq_gzero {x : G} (h : valEq x gzero) : (normSq x).1 = 0 := by
  rw [valEq_gzero_iff] at h
  simp [normSq, h.1, h.2]

/-- The difference of an amplitude with itself has vanishing squared norm
numerator. -/
theorem normSq_fst_gsub_self (x : G) : (normSq (gsub x x)).1 = 0 := by
  simp [normSq, gsub]

/-- Dividing a nonzero amplitude by itself gives a unit that cancels in the
branch comparison: the compared difference vanishes exactly. -/
theorem normSq_fst_cancel (a x : G) (ha : ¬ valEq a gzero) :
    (normSq (gsub x (gmul (gdiv a a) x))).1 = 0 := by
  rw [valEq_gzero_iff] at ha
  have hN : (0 : ℤ) < a.re * a.re + a.im * a.im := by
    rcases not_and_or.mp ha with h1 | h1
    · nlinarith [mul_self_pos.mpr h1, mul_self_nonneg a.im]
    · nlinarith [mul_self_pos.mpr h1, mul_self_nonneg a.re]
  have hNt : (((a.re * a.re + a.im * a.im).toNat : ℕ) : ℤ) = a.re * a.re + a.im * a.im :=
    Int.toNat_of_nonneg hN.le
  have hre : (gsub x (gmul (gdiv a a) x)).re = 0 := by
    rw [gdiv, gsub_re, gmul_re, gmul_re, gmul_im, gmul_d, gmul_d,
        ginv_re ha, ginv_im ha, ginv_d ha]
    push_cast [hNt]
    ring
  have him : (gsub x (gmul (gdiv a a) x)).im = 0 := by
    rw [gdiv, gsub_im, gmul_im, gmul_re, gmul_im, gmul_d, gmul_d,
        ginv_re ha, ginv_im ha, ginv_d ha]
    push_cast [hNt]
    ring
  simp [normSq, hre, him]

/-- Comparing a prefix against itself (mask difference zero) produces only
vanishing discrepancies. -/
theorem dsOf_self_fst (n M : ℕ) (U : ℕ → ℕ → G) :
    ∀ p ∈ dsOf n M 0 U U, p.1 = 0 := by
  intro p hp
  unfold dsOf at hp
  by_cases hM : M = 0
  · rw [if_pos hM] at hp
    obtain ⟨q, hq, rfl⟩ := List.mem_map.mp hp
    exact normSq_fst_gsub_self _
  · rw [if_neg hM] at hp
    obtain ⟨b, hb, hpb⟩ := List.mem_flatMap.mp hp
    by_cases hcond : b &&& M = b
    · rw [if_pos hcond] at hpb
      simp only [branchDs] at hpb
      split at hpb
      case _ hnone =>
        obtain ⟨q, hq, rfl⟩ := List.mem_map.mp hpb
        have hzero : valEq (U q.1 q.2) gzero := by
          have hnp := List.find?_eq_none.mp hnone q hq
          simpa using hnp
        rw [Nat.xor_zero]
        exact normSq_fst_of_valEq_gzero hzero
      case _ p0 hsome =>
        obtain ⟨q, hq, rfl⟩ := List.mem_map.mp hpb
        have hnz : ¬ valEq (U p0.1 p0.2) gzero := by
          have hps := List.find?_some hsome
          simpa using hps
        simp only [Nat.xor_zero]
        exact normSq_fst_cancel (U p0.1 p0.2) (U q.1 q.2) hnz
    · rw [if_neg hcond] at hpb
      simp at hpb

end EqVerif

/-- C9: are_equivalent(C, C, tolerance 0) holds for every circuit C:
observational equivalence is reflexive at zero tolerance. -/
theorem claim_C9 : ∀ (n : ℕ) (c : List (EqVerif.QOp n)), EqVerif.equivAt c c 0 := by
  intro n c
  have hd : ((EqVerif.scan c).mask ^^^ (EqVerif.scan c).mask) &&& (EqVerif.scan c).meas = 0 := by
    rw [Nat.xor_self, Nat.zero_and]
  have hcore : EqVerif.core c c =
      some (EqVerif.dsOf n (EqVerif.scan c).meas 0 (EqVerif.preU c) (EqVerif.preU c)) := by
    simp [EqVerif.core, hd]
  rw [EqVerif.equivAt_some hcore]
  intro p hp
  rw [EqVerif.dsOf_self_fst n (EqVerif.scan c).meas (EqVerif.preU c) p hp]
  norm_num

/-- C5: circuits whose terminally measured qubit sets differ are judged
inequivalent outright, at every tolerance; in particular measuring one
qubit alone is inequivalent to measuring it together with another, and a
circuit with a terminal measurement is inequivalent to one with none. -/
theorem claim_C5 :
    (∀ (n : ℕ) (c1 c2 : List (EqVerif.QOp n)) (atol : ℚ),
        (EqVerif.scan c1).meas ≠ (EqVerif.scan c2).meas → ¬ EqVerif.equivAt c1 c2 atol) ∧
    (∀ atol : ℚ,
        ¬ EqVerif.equivAt (n := 2) [EqVerif.QOp.meas [0] []] [EqVerif.QOp.meas [0, 1] []] atol) ∧
    (∀ atol : ℚ,
        ¬ EqVerif.equivAt (n := 1) [EqVerif.QOp.meas [0] []] [] atol) := by
  refine ⟨fun n c1 c2 atol h => EqVerif.not_equivAt_of_measNe h atol, ?_, ?_⟩
  · exact fun atol => EqVerif.not_equivAt_of_measNe (by decide) atol
  · exact fun atol => EqVerif.not_equivAt_of_measNe (by decide) atol

/-- C5 witness: a concrete instance of the general part, at tolerance 1. -/
theorem claim_C5_witness :
    ¬ EqVerif.equivAt (n := 2) [EqVerif.QOp.meas [1] []] [EqVerif.QOp.meas [0] []] 1 :=
  claim_C5.1 2 [EqVerif.QOp.meas [1] []] [EqVerif.QOp.meas [0] []] 1 (by decide)

/-- C6: with the same qubit terminally measured on both sides, differing
inversion masks are judged equivalent iff a compensating bit-flip before
the measurement exactly cancels the mask difference; the mask data enters
the verifier only through its exact boolean difference, and the judgement
holds at every tolerance in the meaningful range below one. -/
theorem claim_C6 : ∀ (a b flip : Bool) (atol : ℚ), 0 ≤ atol → atol < 1 →
    (EqVerif.equivAt (n := 1) [EqVerif.QOp.meas [0] [a]]
      ((if flip then [EqVerif.QOp.u1 EqVerif.xG 0] else []) ++ [EqVerif.QOp.meas [0] [b]])
      atol ↔
     flip = xor a b) := by
  intro a b flip atol h0 h1
  cases a <;> cases b <;> cases flip <;>
    first
      | exact iff_of_true (EqVerif.equivAt_of_allZero (by decide) atol) (by decide)
      | exact iff_of_false (EqVerif.not_equivAt_of_refuted (by decide) atol h0 h1) (by decide)

/-- C6 witness: the compensated case at tolerance one half. -/
theorem claim_C6_witness :
    EqVerif.equivAt (n := 1) [EqVerif.QOp.meas [0] [false]]
      ((if true then [EqVerif.QOp.u1 EqVerif.xG 0] else []) ++ [EqVerif.QOp.meas [0] [true]])
      (1/2) ↔ true = xor false true :=
  claim_C6 false true true (1/2) (by norm_num) (by norm_num)

/-- C10: an inversion mask shorter than the measured qubit tuple is padded
with false, and each mask bit stays attached to its qubit when the
measurement's qubit arguments are reordered: measuring (a, b) with mask
(true) is equivalent to measuring (b, a) with mask (false, true), and to
measuring (a, b) with mask (true, false), at every tolerance. -/
theorem claim_C10 : ∀ atol : ℚ,
    EqVerif.equivAt (n := 2) [EqVerif.QOp.meas [0, 1] [true]]
      [EqVerif.QOp.meas [1, 0] [false, true]] atol ∧
    EqVerif.equivAt (n := 2) [EqVerif.QOp.meas [0, 1] [true]]
      [EqVerif.QOp.meas [0, 1] [true, false]] atol :=
  fun atol =>
    ⟨EqVerif.equivAt_of_allZero (by decide) atol,
     EqVerif.equivAt_of_allZero (by decide) atol⟩

namespace EqVerif

/-- Component formula for addition. -/
theorem gadd_re (x y : G) : (gadd x y).re = x.re * (y.d : ℤ) + y.re * (x.d : ℤ) := rfl

/-- Component formula for addition. -/
theorem gadd_im (x y : G) : (gadd x y).im = x.im * (y.d : ℤ) + y.im * (x.d : ℤ) := rfl

/-- Component formula for addition. -/
theorem gadd_d (x y : G) : (gadd x y).d = x.d * y.d := rfl

/-- Numerator of the squared norm. -/
theorem normSq_num (x : G) : (normSq x).1 = x.re * x.re + x.im * x.im := rfl

/-- Denominator of the squared norm. -/
theorem normSq_den (x : G) : (normSq x).2.val = x.d * x.d := rfl

/-- A branch comparison of two vanishing amplitudes vanishes, whatever the
branch phase. -/
theorem normSq_fst_zero_pair {z X : G} (hz : valEq z gzero) (hX : valEq X gzero)
    (f : G) : (normSq (gsub z (gmul f X))).1 = 0 := by
  rw [valEq_gzero_iff] at hz hX
  have hre : (gsub z (gmul f X)).re = 0 := by
    simp only [gsub_re, gmul_re, gmul_im, gmul_d, hz.1, hX.1, hX.2]
    ring
  have him : (gsub z (gmul f X)).im = 0 := by
    simp only [gsub_im, gmul_re, gmul_im, gmul_d, hz.2, hX.1, hX.2]
    ring
  simp [normSq, hre, him]

/-- Dividing any amplitude by a nonzero amplitude and multiplying back
cancels exactly: the compared difference vanishes. -/
theorem normSq_fst_div_cancel (z Y : G) (hY : ¬ valEq Y gzero) :
    (normSq (gsub z (gmul (gdiv z Y) Y))).1 = 0 := by
  rw [valEq_gzero_iff] at hY
  have hN : (0 : ℤ) < Y.re * Y.re + Y.im * Y.im := by
    rcases not_and_or.mp hY with h1 | h1
    · nlinarith [mul_self_pos.mpr h1, mul_self_nonneg Y.im]
    · nlinarith [mul_self_pos.mpr h1, mul_self_nonneg Y.re]
  have hNt : (((Y.re * Y.re + Y.im * Y.im).toNat : ℕ) : ℤ) = Y.re * Y.re + Y.im * Y.im :=
    Int.toNat_of_nonneg hN.le
  have hre : (gsub z (gmul (gdiv z Y) Y)).re = 0 := by
    simp only [gdiv, gsub_re, gmul_re, gmul_im, gmul_d, ginv_re hY, ginv_im hY, ginv_d hY]
    push_cast [hNt]
    ring
  have him : (gsub z (gmul (gdiv z Y) Y)).im = 0 := by
    simp only [gdiv, gsub_im, gmul_re, gmul_im, gmul_d, ginv_re hY, ginv_im hY, ginv_d hY]
    push_cast [hNt]
    ring
  simp [normSq, hre, him]

end EqVerif

open EqVerif in
/-- C7 (amended): an epsilon-angle phase rotation by a unit u is observable
exactly when its qubit is not terminally measured.  On an unmeasured qubit
the two circuits are judged inequivalent at tolerance zero whenever the
rotation is nontrivial (u different from one, i.e. epsilon positive), and
judged equivalent at any tolerance whose square absorbs the squared
distance from one to u (the threshold f of the spec).  When the rotation
sits immediately before a terminal measurement on that same qubit, the
phase is destroyed by the measurement and the circuits are judged
equivalent at every tolerance, including zero. -/
theorem claim_C7 : ∀ u : G,
    ((¬ valEq u gone →
      ¬ equivAt (n := 1) [QOp.u1 (phaseG u) 0] [] 0) ∧
    (∀ atol : ℚ,
      ((normSq (gsub gone u)).1 : ℚ) ≤ atol * atol * ((normSq (gsub gone u)).2.val : ℚ) →
      equivAt (n := 1) [QOp.u1 (phaseG u) 0] [] atol)) ∧
    (¬ valEq u gzero → ∀ atol : ℚ,
      equivAt (n := 1) [QOp.u1 (phaseG u) 0, QOp.meas [0] []]
        [QOp.meas [0] []] atol) := by
  intro u
  have hcore : core (n := 1) [QOp.u1 (phaseG u) 0] [] =
      some (dsOf 1 0 0 (preU ([QOp.u1 (phaseG u) 0] : List (QOp 1)))
        (preU ([] : List (QOp 1)))) := rfl
  have h00 : preU ([] : List (QOp 1)) 0 0 = gone := rfl
  have h01 : preU ([] : List (QOp 1)) 0 1 = gzero := rfl
  have h10 : preU ([] : List (QOp 1)) 1 0 = gzero := rfl
  have h11 : preU ([] : List (QOp 1)) 1 1 = gone := rfl
  have g00 : preU ([QOp.u1 (phaseG u) 0] : List (QOp 1)) 0 0 =
      gadd (gmul gone gone) (gmul gzero gzero) := rfl
  have g01 : preU ([QOp.u1 (phaseG u) 0] : List (QOp 1)) 0 1 =
      gadd (gmul gone gzero) (gmul gzero gone) := rfl
  have g10 : preU ([QOp.u1 (phaseG u) 0] : List (QOp 1)) 1 0 =
      gadd (gmul gzero gone) (gmul u gzero) := rfl
  have g11 : preU ([QOp.u1 (phaseG u) 0] : List (QOp 1)) 1 1 =
      gadd (gmul gzero gzero) (gmul u gone) := rfl
  refine ⟨⟨?_, ?_⟩, ?_⟩
  · intro hu
    rw [equivAt_some hcore]
    intro hall
    have hmem : (normSq (gsub (preU ([] : List (QOp 1)) 1 1)
        (preU ([QOp.u1 (phaseG u) 0] : List (QOp 1)) 1 1))) ∈
        dsOf 1 0 0 (preU ([QOp.u1 (phaseG u) 0] : List (QOp 1)))
          (preU ([] : List (QOp 1))) := by
      unfold dsOf
      rw [if_pos rfl]
      exact List.mem_map.mpr ⟨(1, 1), by decide, rfl⟩
    have hineq := hall _ hmem
    rw [h11, g11] at hineq
    simp only [normSq_num, normSq_den, gsub_re, gsub_im, gsub_d, gadd_re, gadd_im, gadd_d,
      gmul_re, gmul_im, gmul_d, gzero, gone] at hineq
    push_cast at hineq
    ring_nf at hineq
    simp only [valEq, gone] at hu
    rw [not_and_or] at hu
    have hud : (0 : ℚ) < (u.d : ℚ) := by
      exact_mod_cast Nat.pos_of_ne_zero u.hd
    rcases hu with hc | hc
    · have hc2 : ((u.re : ℚ)) ≠ (u.d : ℚ) := by
        intro he
        apply hc
        have h3 : u.re = (u.d : ℤ) := by exact_mod_cast he
        omega
      nlinarith [mul_self_pos.mpr (sub_ne_zero.mpr hc2), mul_self_nonneg ((u.im : ℚ))]
    · have hc2 : ((u.im : ℚ)) ≠ 0 := by
        intro he
        apply hc
        have h3 : u.im = 0 := by exact_mod_cast he
        omega
      nlinarith [mul_self_pos.mpr hc2, mul_self_nonneg ((u.re : ℚ) - (u.d : ℚ))]
  · intro atol hb
    rw [equivAt_some hcore]
    intro p hp
    unfold dsOf at hp
    rw [if_pos rfl] at hp
    obtain ⟨q, hq, rfl⟩ := List.mem_map.mp hp
    have hq4 : q = (0, 0) ∨ q = (0, 1) ∨ q = (1, 0) ∨ q = (1, 1) := by
      have hpl : pairsL 1 = [(0, 0), (0, 1), (1, 0), (1, 1)] := rfl
      rw [hpl] at hq
      simpa using hq
    have hnn : (0 : ℚ) ≤ atol * atol *
        (((normSq (gsub (preU ([] : List (QOp 1)) q.1 q.2)
          (preU ([QOp.u1 (phaseG u) 0] : List (QOp 1)) q.1 q.2))).2.val : ℕ) : ℚ) :=
      mul_nonneg (mul_self_nonneg atol) (Nat.cast_nonneg _)
    rcases hq4 with rfl | rfl | rfl | rfl <;> dsimp only
    · have hz : (normSq (gsub (preU ([] : List (QOp 1)) 0 0)
          (preU ([QOp.u1 (phaseG u) 0] : List (QOp 1)) 0 0))).1 = 0 := by
        rw [h00, g00]
        simp [normSq_num, gsub_re, gsub_im, gadd_re, gadd_im, gadd_d,
          gmul_re, gmul_im, gmul_d, gzero, gone]
      rw [hz]
      exact_mod_cast mul_nonneg (mul_self_nonneg atol) (Nat.cast_nonneg _)
    · have hz : (normSq (gsub (preU ([] : List (QOp 1)) 0 1)
          (preU ([QOp.u1 (phaseG u) 0] : List (QOp 1)) 0 1))).1 = 0 := by
        rw [h01, g01]
        simp [normSq_num, gsub_re, gsub_im, gadd_re, gadd_im, gadd_d,
          gmul_re, gmul_im, gmul_d, gzero, gone]
      rw [hz]
      exact_mod_cast mul_nonneg (mul_self_nonneg atol) (Nat.cast_nonneg _)
    · have hz : (normSq (gsub (preU ([] : List (QOp 1)) 1 0)
          (preU ([QOp.u1 (phaseG u) 0] : List (QOp 1)) 1 0))).1 = 0 := by
        rw [h10, g10]
        simp [normSq_num, gsub_re, gsub_im, gadd_re, gadd_im, gadd_d,
          gmul_re, gmul_im, gmul_d, gzero, gone]
      rw [hz]
      exact_mod_cast mul_nonneg (mul_self_nonneg atol) (Nat.cast_nonneg _)
    · have e1 : (normSq (gsub (preU ([] : List (QOp 1)) 1 1)
          (preU ([QOp.u1 (phaseG u) 0] : List (QOp 1)) 1 1))).1 = (normSq (gsub gone u)).1 := by
        rw [h11, g11]
        simp only [normSq_num, gsub_re, gsub_im, gsub_d, gadd_re, gadd_im, gadd_d,
          gmul_re, gmul_im, gmul_d, gzero, gone]
        push_cast
        ring
      have e2 : (normSq (gsub (preU ([] : List (QOp 1)) 1 1)
          (preU ([QOp.u1 (phaseG u) 0] : List (QOp 1)) 1 1))).2.val =
          (normSq (gsub gone u)).2.val := by
        rw [h11, g11]
        simp only [normSq_den, gsub_d, gadd_d, gmul_d, gzero, gone]
        ring
      rw [e1, e2]
      exact hb
  · intro hu atol
    have hm1 : (scan ([QOp.u1 (phaseG u) 0, QOp.meas [0] []] : List (QOp 1))).meas = 1 := rfl
    have hm2 : (scan ([QOp.meas [0] []] : List (QOp 1))).meas = 1 := rfl
    have hk1 : (scan ([QOp.u1 (phaseG u) 0, QOp.meas [0] []] : List (QOp 1))).mask = 0 := rfl
    have hk2 : (scan ([QOp.meas [0] []] : List (QOp 1))).mask = 0 := rfl
    have hz01 : ((0 ^^^ 0) &&& 1 : ℕ) = 0 := by decide
    have hcm : core (n := 1) [QOp.u1 (phaseG u) 0, QOp.meas [0] []] [QOp.meas [0] []] =
        some (dsOf 1 1 0
          (preU ([QOp.u1 (phaseG u) 0, QOp.meas [0] []] : List (QOp 1)))
          (preU ([QOp.meas [0] []] : List (QOp 1)))) := by
      simp only [core]
      rw [hm1, hm2, hk1, hk2, if_pos rfl, hz01]
    have k00 : preU ([QOp.u1 (phaseG u) 0, QOp.meas [0] []] : List (QOp 1)) 0 0 =
        gadd (gmul gone gone) (gmul gzero gzero) := rfl
    have k01 : preU ([QOp.u1 (phaseG u) 0, QOp.meas [0] []] : List (QOp 1)) 0 1 =
        gadd (gmul gone gzero) (gmul gzero gone) := rfl
    have k10 : preU ([QOp.u1 (phaseG u) 0, QOp.meas [0] []] : List (QOp 1)) 1 0 =
        gadd (gmul gzero gone) (gmul u gzero) := rfl
    have k11 : preU ([QOp.u1 (phaseG u) 0, QOp.meas [0] []] : List (QOp 1)) 1 1 =
        gadd (gmul gzero gzero) (gmul u gone) := rfl
    have hX0 : valEq (preU ([QOp.u1 (phaseG u) 0, QOp.meas [0] []] : List (QOp 1)) 1 0)
        gzero := by
      rw [k10, valEq_gzero_iff]
      constructor
      · simp only [gadd_re, gmul_re, gmul_im, gmul_d, gzero, gone]
        push_cast
        ring
      · simp only [gadd_im, gmul_re, gmul_im, gmul_d, gzero, gone]
        push_cast
        ring
    have hX1 : ¬ valEq (preU ([QOp.u1 (phaseG u) 0, QOp.meas [0] []] : List (QOp 1)) 1 1)
        gzero := by
      rw [k11, valEq_gzero_iff]
      rintro ⟨h1, h2⟩
      apply hu
      rw [valEq_gzero_iff]
      simp only [gadd_re, gadd_im, gmul_re, gmul_im, gmul_d, gzero, gone] at h1 h2
      push_cast at h1 h2
      constructor
      · linear_combination h1
      · linear_combination h2
    rw [equivAt_some hcm]
    intro p hp
    unfold dsOf at hp
    rw [if_neg (by norm_num : ¬ (1 : ℕ) = 0)] at hp
    obtain ⟨b, hb, hpb⟩ := List.mem_flatMap.mp hp
    have hb2 : b = 0 ∨ b = 1 := by
      have hlt := List.mem_range.mp hb
      norm_num at hlt
      omega
    rcases hb2 with rfl | rfl
    · rw [if_pos (by decide : (0 : ℕ) &&& 1 = 0)] at hpb
      simp only [branchDs] at hpb
      split at hpb
      case _ hnone =>
        exfalso
        have hnp := List.find?_eq_none.mp hnone (0, 0) (by decide)
        simp only [decide_eq_true_eq, not_not] at hnp
        rw [k00] at hnp
        revert hnp
        decide
      case _ p0 hsome =>
        have hpred0 := List.find?_some hsome
        have hm0 := List.mem_of_find?_eq_some hsome
        have hp02 : p0 = (0, 0) ∨ p0 = (0, 1) := by
          have hfl : (pairsL 1).filter (fun q => q.1 &&& 1 == 0) =
              [(0, 0), (0, 1)] := by decide
          rw [hfl] at hm0
          simpa using hm0
        rcases hp02 with rfl | rfl
        · obtain ⟨q, hq, rfl⟩ := List.mem_map.mp hpb
          have hq2 : q = (0, 0) ∨ q = (0, 1) := by
            have hfl : (pairsL 1).filter (fun w => w.1 &&& 1 == 0) =
                [(0, 0), (0, 1)] := by decide
            rw [hfl] at hq
            simpa using hq
          rcases hq2 with rfl | rfl <;> dsimp only <;> simp only [Nat.xor_zero]
          · rw [normSq_fst_div_cancel _ _ (by rw [k00]; decide)]
            exact_mod_cast mul_nonneg (mul_self_nonneg atol) (Nat.cast_nonneg _)
          · rw [normSq_fst_zero_pair (by decide) (by rw [k01]; decide)]
            exact_mod_cast mul_nonneg (mul_self_nonneg atol) (Nat.cast_nonneg _)
        · exfalso
          simp only [decide_eq_true_eq] at hpred0
          rw [k01] at hpred0
          revert hpred0
          decide
    · rw [if_pos (by decide : (1 : ℕ) &&& 1 = 1)] at hpb
      simp only [branchDs] at hpb
      split at hpb
      case _ hnone =>
        exfalso
        have hnp := List.find?_eq_none.mp hnone (1, 1) (by decide)
        simp only [decide_eq_true_eq, not_not] at hnp
        exact hX1 hnp
      case _ p0 hsome =>
        have hpred0 := List.find?_some hsome
        have hm0 := List.mem_of_find?_eq_some hsome
        have hp02 : p0 = (1, 0) ∨ p0 = (1, 1) := by
          have hfl : (pairsL 1).filter (fun q => q.1 &&& 1 == 1) =
              [(1, 0), (1, 1)] := by decide
          rw [hfl] at hm0
          simpa using hm0
        rcases hp02 with rfl | rfl
        · exfalso
          simp only [decide_eq_true_eq] at hpred0
          exact hpred0 hX0
        · obtain ⟨q, hq, rfl⟩ := List.mem_map.mp hpb
          have hq2 : q = (1, 0) ∨ q = (1, 1) := by
            have hfl : (pairsL 1).filter (fun w => w.1 &&& 1 == 1) =
                [(1, 0), (1, 1)] := by decide
            rw [hfl] at hq
            simpa using hq
          rcases hq2 with rfl | rfl <;> dsimp only <;> simp only [Nat.xor_zero]
          · rw [normSq_fst_zero_pair (by decide) hX0]
            exact_mod_cast mul_nonneg (mul_self_nonneg atol) (Nat.cast_nonneg _)
          · rw [normSq_fst_div_cancel _ _ hX1]
            exact_mod_cast mul_nonneg (mul_self_nonneg atol) (Nat.cast_nonneg _)

/-- C7 counterexample to the original claim: the unit (3 + 4 i) / 5 is a
genuine nontrivial rotation (different from one, and of absolute value
one), yet the circuit applying it immediately before a terminal
measurement on the same qubit is judged equivalent to the bare measurement
at tolerance zero — the measured phase is unobservable, not refused. -/
theorem claim_C7_counterexample :
    ¬ EqVerif.valEq ⟨3, 4, 5, by norm_num⟩ EqVerif.gone ∧
    ((EqVerif.normSq ⟨3, 4, 5, by norm_num⟩).1 : ℤ) =
      ((EqVerif.normSq ⟨3, 4, 5, by norm_num⟩).2.val : ℤ) ∧
    EqVerif.equivAt (n := 1)
      [EqVerif.QOp.u1 (EqVerif.phaseG ⟨3, 4, 5, by norm_num⟩) 0, EqVerif.QOp.meas [0] []]
      [EqVerif.QOp.meas [0] []] 0 :=
  ⟨by decide, by decide, EqVerif.equivAt_of_allZero (by decide) 0⟩

/-- C7 witness: the unit (3 + 4 i) / 5 exercises both regimes: refused at
tolerance zero without a measurement, accepted at tolerance one without a
measurement, and accepted at tolerance zero before a terminal
measurement. -/
theorem claim_C7_witness :
    (¬ EqVerif.equivAt (n := 1)
      [EqVerif.QOp.u1 (EqVerif.phaseG ⟨3, 4, 5, by norm_num⟩) 0] [] 0) ∧
    EqVerif.equivAt (n := 1)
      [EqVerif.QOp.u1 (EqVerif.phaseG ⟨3, 4, 5, by norm_num⟩) 0] [] 1 ∧
    EqVerif.equivAt (n := 1)
      [EqVerif.QOp.u1 (EqVerif.phaseG ⟨3, 4, 5, by norm_num⟩) 0, EqVerif.QOp.meas [0] []]
      [EqVerif.QOp.meas [0] []] 0 :=
  ⟨(claim_C7 ⟨3, 4, 5, by norm_num⟩).1.1 (by decide),
   (claim_C7 ⟨3, 4, 5, by norm_num⟩).1.2 1 (by norm_num [EqVerif.normSq_num,
     EqVerif.normSq_den, EqVerif.gsub_re, EqVerif.gsub_im, EqVerif.gsub_d, EqVerif.gone]),
   (claim_C7 ⟨3, 4, 5, by norm_num⟩).2 (by decide) 0⟩

open GateDecomp in
/-- C1: for each of the three target gates and every one of the six
permutations of the three line qubits, the unitary of the circuit built
from the decomposition engine equals the original gate's matrix exactly,
column by column on the computational basis — hence within any positive
tolerance such as 1e-8, and not merely up to a global phase. -/
theorem claim_C1 : ∀ p : Fin 3 → Fin 3, Function.Bijective p →
    circImplements (decomposeD lineAdj .ccz (p 0) (p 1) (p 2)) (embedCCZ (p 0) (p 1) (p 2)) ∧
    circImplements (decomposeD lineAdj .ccx (p 0) (p 1) (p 2)) (embedCCX (p 0) (p 1) (p 2)) ∧
    circImplements (decomposeD lineAdj .cswap (p 0) (p 1) (p 2))
      (embedCSWAP (p 0) (p 1) (p 2)) := by decide

/-- C1 witness: the identity ordering. -/
theorem claim_C1_witness :
    GateDecomp.circImplements
      (GateDecomp.decomposeD GateDecomp.lineAdj .ccz 0 1 2) (GateDecomp.embedCCZ 0 1 2) ∧
    GateDecomp.circImplements
      (GateDecomp.decomposeD GateDecomp.lineAdj .ccx 0 1 2) (GateDecomp.embedCCX 0 1 2) ∧
    GateDecomp.circImplements
      (GateDecomp.decomposeD GateDecomp.lineAdj .cswap 0 1 2) (GateDecomp.embedCSWAP 0 1 2) :=
  claim_C1 (fun i => i) (by decide)

open GateDecomp in
/-- C2: on a fully-adjacent device, converting a doubly-controlled bit-flip
or phase-flip operation yields exactly eight two-qubit operations and no
operation of arity greater than two, for all six qubit-order
permutations. -/
theorem claim_C2 : ∀ p : Fin 3 → Fin 3, Function.Bijective p →
    (twoCount (convert fullAdj [XOp.big .ccz (p 0) (p 1) (p 2)]) = 8 ∧
     overCount (convert fullAdj [XOp.big .ccz (p 0) (p 1) (p 2)]) = 0) ∧
    (twoCount (convert fullAdj [XOp.big .ccx (p 0) (p 1) (p 2)]) = 8 ∧
     overCount (convert fullAdj [XOp.big .ccx (p 0) (p 1) (p 2)]) = 0) := by decide

/-- C2 witness: the identity ordering. -/
theorem claim_C2_witness :
    (GateDecomp.twoCount (GateDecomp.convert GateDecomp.fullAdj
      [GateDecomp.XOp.big .ccz 0 1 2]) = 8 ∧
     GateDecomp.overCount (GateDecomp.convert GateDecomp.fullAdj
      [GateDecomp.XOp.big .ccz 0 1 2]) = 0) ∧
    (GateDecomp.twoCount (GateDecomp.convert GateDecomp.fullAdj
      [GateDecomp.XOp.big .ccx 0 1 2]) = 8 ∧
     GateDecomp.overCount (GateDecomp.convert GateDecomp.fullAdj
      [GateDecomp.XOp.big .ccx 0 1 2]) = 0) :=
  claim_C2 (fun i => i) (by decide)

open GateDecomp in
/-- C3: on the line device, converting a controlled-swap operation yields
nine two-qubit operations for the orderings whose targets are mutually
adjacent (two favorably adjacent pairs) and twelve — the documented upper
bound — for the orderings where the targets are not adjacent (only pairs
through the control available); no operation of arity greater than two
remains.  The cost is a function of which pairs the ordering makes
adjacent only. -/
theorem claim_C3 : ∀ p : Fin 3 → Fin 3, Function.Bijective p →
    (lineAdj (p 1) (p 2) = true →
      twoCount (convert lineAdj [XOp.big .cswap (p 0) (p 1) (p 2)]) = 9) ∧
    (lineAdj (p 1) (p 2) = false →
      twoCount (convert lineAdj [XOp.big .cswap (p 0) (p 1) (p 2)]) = 12) ∧
    overCount (convert lineAdj [XOp.big .cswap (p 0) (p 1) (p 2)]) = 0 := by decide

/-- C3 witness: the identity ordering, whose targets are adjacent. -/
theorem claim_C3_witness :
    GateDecomp.lineAdj 1 2 = true ∧
    GateDecomp.twoCount (GateDecomp.convert GateDecomp.lineAdj
      [GateDecomp.XOp.big .cswap 0 1 2]) = 9 :=
  ⟨by decide, ((claim_C3 (fun i => i) (by decide)).1 (by decide))⟩

open GateDecomp in
/-- C8: for each of the three target gates and every one of the six
qubit-order permutations on the nearest-neighbor grid device, converting
the circuit and then validating it against the device adjacency succeeds:
no adjacency violation and no remaining operation of arity greater than
two. -/
theorem claim_C8 : ∀ p : Fin 3 → Fin 3, Function.Bijective p → ∀ g : TQGate,
    validate gridAdj (convert gridAdj [XOp.big g (p 0) (p 1) (p 2)]) = true := by decide

/-- C8 witness: the identity ordering with the controlled-swap gate. -/
theorem claim_C8_witness :
    GateDecomp.validate GateDecomp.gridAdj
      (GateDecomp.convert GateDecomp.gridAdj [GateDecomp.XOp.big .cswap 0 1 2]) = true :=
  claim_C8 (fun i => i) (by decide) .cswap

/-- Every bijection of the three slots is one of the six listed
permutations. -/
theorem mem_perms3_of_bij : ∀ p : Fin 3 → Fin 3, Function.Bijective p →
    p ∈ OpEq.perms3 := by decide

/-- The identity permutation acts trivially. -/
theorem id3_apply : ∀ i : Fin 3, (![0, 1, 2] : Fin 3 → Fin 3) i = i := by decide

open OpEq in
/-- C4: operation equality follows each gate's symmetry group: a
doubly-controlled phase-flip operation on an injectively assigned qubit
tuple equals the same gate on every permutation of the tuple; a
doubly-controlled bit-flip operation equals exactly the permutations in
its symmetry group (the identity and the controls' swap); a
controlled-swap operation equals exactly the identity and the targets'
swap; and the alias gates are the same constants, so alias operations on
the same tuple are equal. -/
theorem claim_C4 : ∀ q : Fin 3 → ℕ, Function.Injective q →
    (∀ p : Fin 3 → Fin 3, Function.Bijective p →
      opEq ⟨CCZ, q⟩ ⟨CCZ, fun i => q (p i)⟩) ∧
    (∀ p : Fin 3 → Fin 3, Function.Bijective p →
      (opEq ⟨CCX, q⟩ ⟨CCX, fun i => q (p i)⟩ ↔ p ∈ symGroup CCX)) ∧
    (∀ p : Fin 3 → Fin 3, Function.Bijective p →
      (opEq ⟨CSWAP, q⟩ ⟨CSWAP, fun i => q (p i)⟩ ↔ p ∈ symGroup CSWAP)) ∧
    (TOFFOLI = CCX ∧ FREDKIN = CSWAP ∧
      ∀ t : Fin 3 → ℕ, opEq ⟨TOFFOLI, t⟩ ⟨CCX, t⟩ ∧ opEq ⟨FREDKIN, t⟩ ⟨CSWAP, t⟩) := by
  intro q hq
  refine ⟨fun p hp => ⟨rfl, p, mem_perms3_of_bij p hp, rfl⟩, ?_, ?_, rfl, rfl, ?_⟩
  · intro p hp
    constructor
    · rintro ⟨-, s, hs, h⟩
      have hps : p = s := by
        funext i
        exact hq (congrFun h i)
      rw [hps]
      exact hs
    · intro hmem
      exact ⟨rfl, p, hmem, rfl⟩
  · intro p hp
    constructor
    · rintro ⟨-, s, hs, h⟩
      have hps : p = s := by
        funext i
        exact hq (congrFun h i)
      rw [hps]
      exact hs
    · intro hmem
      exact ⟨rfl, p, hmem, rfl⟩
  · intro t
    exact ⟨⟨rfl, ![0, 1, 2],
        show (![0, 1, 2] : Fin 3 → Fin 3) ∈ symGroup TOFFOLI by decide,
        by funext i; rw [id3_apply]⟩,
      ⟨rfl, ![0, 1, 2],
        show (![0, 1, 2] : Fin 3 → Fin 3) ∈ symGroup FREDKIN by decide,
        by funext i; rw [id3_apply]⟩⟩

/-- C4 witness: on the concrete tuple (0, 1, 2), swapping the two controls
of the bit-flip gate gives an equal operation. -/
theorem claim_C4_witness :
    OpEq.opEq ⟨OpEq.CCX, ![0, 1, 2]⟩ ⟨OpEq.CCX, fun i => ![0, 1, 2] (![1, 0, 2] i)⟩ :=
  ((claim_C4 ![0, 1, 2] (by decide)).2.1 ![1, 0, 2] (by decide)).mpr (by decide)
